import Mathlib

/-
Verification of the MJPEG camera backend (server.mjs).

The server accumulates TCP bytes in a per-connection buffer and drains it with
one of two framing disciplines:
  * jpeg-markers: scan for SOI (0xFF 0xD8 = 255 216) and EOI (0xFF 0xD9 =
    255 217); with no SOI present, buffers above 5 MB are trimmed to their
    last 1 MB.
  * len-prefix: a 4-byte big-endian length header, then exactly that many
    bytes form a frame; a parsed header is carried in pendingLen.
Extracted frames go through handleFrame, which drops frames shorter than
128 bytes and otherwise overwrites the latest-frame cache.  A periodic
broadcast tick writes the cached frame to every registered MJPEG client,
deleting clients whose write throws.

Bytes are modelled as natural numbers and buffers as lists of bytes.  The
drain loops are modelled as functions returning the trace of frames passed
to handleFrame together with the residual buffer state.
-/

set_option maxHeartbeats 1600000

namespace MjpegServer

/-- Bytes of the TCP stream, modelled as natural numbers (0xFF = 255,
0xD8 = 216, 0xD9 = 217). -/
abbrev Byte := Nat

/-- First index at which the two-byte pattern a b occurs in a list.
This models Node Buffer.indexOf with a two-byte needle, as used for the
SOI and EOI markers: the result is the smallest index whose byte equals a
and whose successor byte equals b. -/
def indexOf2 (a b : Byte) : List Byte → Option Nat
  | x :: y :: rest =>
      if x = a ∧ y = b then some 0 else (indexOf2 a b (y :: rest)).map (· + 1)
  | _ => none

@[simp] theorem indexOf2_nil (a b : Byte) : indexOf2 a b [] = none := rfl

@[simp] theorem indexOf2_single (a b x : Byte) : indexOf2 a b [x] = none := rfl

theorem indexOf2_cons_cons (a b x y : Byte) (rest : List Byte) :
    indexOf2 a b (x :: y :: rest) =
      if x = a ∧ y = b then some 0 else (indexOf2 a b (y :: rest)).map (· + 1) := rfl

/-- A found pattern index leaves room for the two pattern bytes. -/
theorem indexOf2_some_le {a b : Byte} :
    ∀ {l : List Byte} {i : Nat}, indexOf2 a b l = some i → i + 2 ≤ l.length := by
  intro l
  induction l with
  | nil => intro i h; simp at h
  | cons x t ih =>
    intro i h
    cases t with
    | nil => simp at h
    | cons y t2 =>
      rw [indexOf2_cons_cons] at h
      split at h
      · simp only [Option.some.injEq] at h
        simp only [List.length_cons]
        omega
      · cases hj : indexOf2 a b (y :: t2) with
        | none => rw [hj] at h; simp at h
        | some j =>
          rw [hj] at h
          simp only [Option.map_some', Option.some.injEq] at h
          have hb := ih hj
          simp only [List.length_cons] at hb ⊢
          omega

/-- Appending more bytes on the right cannot change an already-found
pattern index. -/
theorem indexOf2_append_some {a b : Byte} :
    ∀ {l : List Byte} {i : Nat} (c : List Byte),
      indexOf2 a b l = some i → indexOf2 a b (l ++ c) = some i := by
  intro l
  induction l with
  | nil => intro i c h; simp at h
  | cons x t ih =>
    intro i c h
    cases t with
    | nil => simp at h
    | cons y t2 =>
      rw [indexOf2_cons_cons] at h
      rw [List.cons_append, List.cons_append, indexOf2_cons_cons]
      split at h
      · rw [if_pos (by assumption)]
        exact h
      · rw [if_neg (by assumption)]
        cases hj : indexOf2 a b (y :: t2) with
        | none => rw [hj] at h; simp at h
        | some j =>
          rw [hj] at h
          have := ih (i := j) c hj
          rw [List.cons_append] at this
          rw [this]
          exact h

/-- If the pattern is absent from a cons cell it is absent from the tail. -/
theorem indexOf2_cons_none {a b x : Byte} {l : List Byte}
    (h : indexOf2 a b (x :: l) = none) : indexOf2 a b l = none := by
  cases l with
  | nil => rfl
  | cons y t =>
    rw [indexOf2_cons_cons] at h
    split at h
    · simp at h
    · cases hj : indexOf2 a b (y :: t) with
      | none => rfl
      | some j => rw [hj] at h; simp at h

/-- If the pattern is absent it stays absent after dropping a prefix. -/
theorem indexOf2_drop_none {a b : Byte} :
    ∀ {l : List Byte} (k : Nat), indexOf2 a b l = none →
      indexOf2 a b (l.drop k) = none := by
  intro l
  induction l with
  | nil => intro k _; simp
  | cons x t ih =>
    intro k h
    cases k with
    | zero => exact h
    | succ k2 => exact ih k2 (indexOf2_cons_none h)

/-- The pattern matches at index zero iff the first byte is a and the
second byte is b. -/
theorem indexOf2_cons_eq_zero_iff {a b x : Byte} {l : List Byte} :
    indexOf2 a b (x :: l) = some 0 ↔ (x = a ∧ l.head? = some b) := by
  cases l with
  | nil => simp
  | cons y t =>
    rw [indexOf2_cons_cons]
    constructor
    · intro h
      split at h
      · exact ⟨(by assumption : x = a ∧ y = b).1, by
          simp [(by assumption : x = a ∧ y = b).2]⟩
      · cases hj : indexOf2 a b (y :: t) with
        | none => rw [hj] at h; simp at h
        | some j => rw [hj] at h; simp at h
    · intro h
      simp only [List.head?_cons, Option.some.injEq] at h
      rw [if_pos h]

/-- Scanning over a replicated filler byte distinct from the first pattern
byte just shifts the found index. -/
theorem indexOf2_replicate_append {a b z : Byte} (hz : a ≠ z) :
    ∀ (n : Nat) (rest : List Byte),
      indexOf2 a b (List.replicate n z ++ rest) =
        (indexOf2 a b rest).map (· + n) := by
  intro n
  induction n with
  | zero =>
    intro rest
    simp only [List.replicate_zero, List.nil_append]
    cases indexOf2 a b rest <;> simp
  | succ n ih =>
    intro rest
    rw [List.replicate_succ, List.cons_append]
    cases hshape : List.replicate n z ++ rest with
    | nil =>
      rcases List.append_eq_nil.mp hshape with ⟨h1, h2⟩
      subst h2
      simp
    | cons w t =>
      rw [indexOf2_cons_cons]
      have hza : ¬ (z = a ∧ w = b) := fun hc => hz hc.1.symm
      rw [if_neg hza]
      have h2 : indexOf2 a b (w :: t) = (indexOf2 a b rest).map (· + n) := by
        rw [← hshape]
        exact ih rest
      rw [h2]
      cases indexOf2 a b rest with
      | none => simp
      | some j => simp [Nat.add_assoc]

/-- The pattern is absent from a pure filler buffer when its first byte
differs from the filler. -/
theorem indexOf2_replicate_none {a b z : Byte} (hz : a ≠ z) (n : Nat) :
    indexOf2 a b (List.replicate n z) = none := by
  have h := @indexOf2_replicate_append a b z hz n []
  simpa using h

/-- Big-endian unsigned 32-bit read of the first four buffered bytes,
modelling buffer.readUInt32BE(0); only called when at least four bytes are
buffered. -/
def readU32BE (l : List Byte) : Nat :=
  l.getD 0 0 * 16777216 + l.getD 1 0 * 65536 + l.getD 2 0 * 256 + l.getD 3 0

theorem readU32BE_append {l c : List Byte} (h : 4 ≤ l.length) :
    readU32BE (l ++ c) = readU32BE l := by
  unfold readU32BE
  rw [List.getD_append _ _ _ _ (by omega), List.getD_append _ _ _ _ (by omega),
    List.getD_append _ _ _ _ (by omega), List.getD_append _ _ _ _ (by omega)]

/-- One run of the jpeg-markers drain loop of the socket data handler,
as a trace semantics: the first component is the sequence of frames passed
to handleFrame, the second the residual buffer.  Mirrors the source loop:
find SOI; if absent, trim buffers above the 5 MB high-water mark to their
last 1 MB and stop; otherwise find EOI starting two bytes later; if absent
stop; otherwise the frame is the slice from the SOI through the EOI
inclusive (start to end+2) and the loop continues on the rest. -/
def markerStep (buffer : List Byte) : List (List Byte) × List Byte :=
  match hs : indexOf2 255 216 buffer with
  | none =>
      if buffer.length > 5 * 1024 * 1024 then
        ([], buffer.drop (buffer.length - 1024 * 1024))
      else ([], buffer)
  | some s =>
      match he : indexOf2 255 217 (buffer.drop (s + 2)) with
      | none => ([], buffer)
      | some r =>
          let rest := markerStep (buffer.drop (s + r + 4))
          ((buffer.drop s).take (r + 4) :: rest.1, rest.2)
termination_by buffer.length
decreasing_by
  simp only [List.length_drop]
  have h1 := indexOf2_some_le hs
  omega

/-- One run of the len-prefix drain loop, as a trace semantics over the
pendingLen state and the buffer: with no pending length, four buffered
bytes are required to read the big-endian header, which is consumed at
once; with a pending length n, n buffered bytes are required and the frame
is exactly those n bytes, after which pendingLen resets to none. -/
def lenExtract (pendingLen : Option Nat) (buffer : List Byte) :
    List (List Byte) × Option Nat × List Byte :=
  match pendingLen with
  | none =>
      if _h4 : buffer.length < 4 then ([], none, buffer)
      else lenExtract (some (readU32BE buffer)) (buffer.drop 4)
  | some n =>
      if buffer.length < n then ([], some n, buffer)
      else
        let rest := lenExtract none (buffer.drop n)
        (buffer.take n :: rest.1, rest.2)
termination_by 2 * buffer.length + pendingLen.elim 0 (fun _ => 1)
decreasing_by
  · simp only [List.length_drop, Option.elim_none, Option.elim_some]
    omega
  · simp only [List.length_drop, Option.elim_none, Option.elim_some]
    omega

theorem markerStep_no_soi {buffer : List Byte}
    (h : indexOf2 255 216 buffer = none) :
    markerStep buffer =
      ([], if buffer.length > 5 * 1024 * 1024 then
             buffer.drop (buffer.length - 1024 * 1024)
           else buffer) := by
  conv_lhs => rw [markerStep]
  split
  · split <;> rfl
  · rename_i s heq
    rw [h] at heq
    cases heq

theorem markerStep_no_eoi {buffer : List Byte} {s : Nat}
    (hs : indexOf2 255 216 buffer = some s)
    (he : indexOf2 255 217 (buffer.drop (s + 2)) = none) :
    markerStep buffer = ([], buffer) := by
  conv_lhs => rw [markerStep]
  split
  · rename_i heq
    rw [hs] at heq
    cases heq
  · rename_i s2 heq
    rw [hs] at heq
    injection heq with h2
    subst h2
    split
    · rfl
    · rename_i r heq2
      rw [he] at heq2
      cases heq2

theorem markerStep_frame {buffer : List Byte} {s r : Nat}
    (hs : indexOf2 255 216 buffer = some s)
    (he : indexOf2 255 217 (buffer.drop (s + 2)) = some r) :
    markerStep buffer =
      ((buffer.drop s).take (r + 4) :: (markerStep (buffer.drop (s + r + 4))).1,
        (markerStep (buffer.drop (s + r + 4))).2) := by
  conv_lhs => rw [markerStep]
  split
  · rename_i heq
    rw [hs] at heq
    cases heq
  · rename_i s2 heq
    rw [hs] at heq
    injection heq with h2
    subst h2
    split
    · rename_i heq2
      rw [he] at heq2
      cases heq2
    · rename_i r2 heq2
      rw [he] at heq2
      injection heq2 with h3
      subst h3
      rfl

theorem lenExtract_none_small {buffer : List Byte} (h : buffer.length < 4) :
    lenExtract none buffer = ([], none, buffer) := by
  conv_lhs => rw [lenExtract]
  rw [dif_pos h]

theorem lenExtract_none_big {buffer : List Byte} (h : ¬ buffer.length < 4) :
    lenExtract none buffer =
      lenExtract (some (readU32BE buffer)) (buffer.drop 4) := by
  conv_lhs => rw [lenExtract]
  rw [dif_neg h]

theorem lenExtract_some_small {buffer : List Byte} {n : Nat}
    (h : buffer.length < n) :
    lenExtract (some n) buffer = ([], some n, buffer) := by
  conv_lhs => rw [lenExtract]
  rw [if_pos h]

theorem lenExtract_some_big {buffer : List Byte} {n : Nat}
    (h : ¬ buffer.length < n) :
    lenExtract (some n) buffer =
      (buffer.take n :: (lenExtract none (buffer.drop n)).1,
        (lenExtract none (buffer.drop n)).2) := by
  conv_lhs => rw [lenExtract]
  rw [if_neg h]

/-- The latest-frame cache: the process-wide mutable state written by
handleFrame (latestFrame, framesReceived, bytesLastFrame). -/
structure CacheState where
  latestFrame : Option (List Byte)
  framesReceived : Nat
  bytesLastFrame : Nat
deriving Repr, DecidableEq

/-- The cache at start-up: no frame yet, zero counters. -/
def initialCache : CacheState := ⟨none, 0, 0⟩

/-- handleFrame from the source: frames shorter than 128 bytes are dropped
(the cache is untouched); otherwise the frame overwrites latestFrame,
framesReceived is incremented and bytesLastFrame is set to the frame
length.  The source also drops a null frame, which has no counterpart
here since every extracted frame is a list. -/
def handleFrame (frame : List Byte) (st : CacheState) : CacheState :=
  if frame.length < 128 then st
  else ⟨some frame, st.framesReceived + 1, frame.length⟩

/-- The jpeg-markers drain loop with the handleFrame call inlined as in the
source: the cache state is threaded through each extracted frame. -/
def markerLoop (st : CacheState) (buffer : List Byte) :
    CacheState × List Byte :=
  match hs : indexOf2 255 216 buffer with
  | none =>
      if buffer.length > 5 * 1024 * 1024 then
        (st, buffer.drop (buffer.length - 1024 * 1024))
      else (st, buffer)
  | some s =>
      match he : indexOf2 255 217 (buffer.drop (s + 2)) with
      | none => (st, buffer)
      | some r =>
          markerLoop (handleFrame ((buffer.drop s).take (r + 4)) st)
            (buffer.drop (s + r + 4))
termination_by buffer.length
decreasing_by
  simp only [List.length_drop]
  have h1 := indexOf2_some_le hs
  omega

/-- The len-prefix drain loop with the handleFrame call inlined as in the
source. -/
def lenLoop (st : CacheState) (pendingLen : Option Nat) (buffer : List Byte) :
    CacheState × Option Nat × List Byte :=
  match pendingLen with
  | none =>
      if _h4 : buffer.length < 4 then (st, none, buffer)
      else lenLoop st (some (readU32BE buffer)) (buffer.drop 4)
  | some n =>
      if buffer.length < n then (st, some n, buffer)
      else lenLoop (handleFrame (buffer.take n) st) none (buffer.drop n)
termination_by 2 * buffer.length + pendingLen.elim 0 (fun _ => 1)
decreasing_by
  · simp only [List.length_drop, Option.elim_none, Option.elim_some]
    omega
  · simp only [List.length_drop, Option.elim_none, Option.elim_some]
    omega

/-- The per-connection data handler in jpeg-markers mode, applied to a
sequence of received chunks: each chunk is appended to the buffer and the
drain loop is run; the result is the concatenated trace of extracted
frames and the final buffer. -/
def processChunksMarker (buffer : List Byte) :
    List (List Byte) → List (List Byte) × List Byte
  | [] => ([], buffer)
  | ch :: rest =>
      let step := markerStep (buffer ++ ch)
      let cont := processChunksMarker step.2 rest
      (step.1 ++ cont.1, cont.2)

/-- The per-connection data handler in len-prefix mode, applied to a
sequence of received chunks: each chunk is appended to the buffer and the
drain loop is run over the pendingLen state and the buffer. -/
def processChunksLen (pendingLen : Option Nat) (buffer : List Byte) :
    List (List Byte) → List (List Byte) × Option Nat × List Byte
  | [] => ([], pendingLen, buffer)
  | ch :: rest =>
      let step := lenExtract pendingLen (buffer ++ ch)
      let cont := processChunksLen step.2.1 step.2.2 rest
      (step.1 ++ cont.1, cont.2)

theorem markerLoop_no_soi {st : CacheState} {buffer : List Byte}
    (h : indexOf2 255 216 buffer = none) :
    markerLoop st buffer =
      (st, if buffer.length > 5 * 1024 * 1024 then
             buffer.drop (buffer.length - 1024 * 1024)
           else buffer) := by
  conv_lhs => rw [markerLoop]
  split
  · split <;> rfl
  · rename_i s heq
    rw [h] at heq
    cases heq

theorem markerLoop_no_eoi {st : CacheState} {buffer : List Byte} {s : Nat}
    (hs : indexOf2 255 216 buffer = some s)
    (he : indexOf2 255 217 (buffer.drop (s + 2)) = none) :
    markerLoop st buffer = (st, buffer) := by
  conv_lhs => rw [markerLoop]
  split
  · rename_i heq
    rw [hs] at heq
    cases heq
  · rename_i s2 heq
    rw [hs] at heq
    injection heq with h2
    subst h2
    split
    · rfl
    · rename_i r heq2
      rw [he] at heq2
      cases heq2

theorem markerLoop_frame {st : CacheState} {buffer : List Byte} {s r : Nat}
    (hs : indexOf2 255 216 buffer = some s)
    (he : indexOf2 255 217 (buffer.drop (s + 2)) = some r) :
    markerLoop st buffer =
      markerLoop (handleFrame ((buffer.drop s).take (r + 4)) st)
        (buffer.drop (s + r + 4)) := by
  conv_lhs => rw [markerLoop]
  split
  · rename_i heq
    rw [hs] at heq
    cases heq
  · rename_i s2 heq
    rw [hs] at heq
    injection heq with h2
    subst h2
    split
    · rename_i heq2
      rw [he] at heq2
      cases heq2
    · rename_i r2 heq2
      rw [he] at heq2
      injection heq2 with h3
      subst h3
      rfl

theorem lenLoop_none_small {st : CacheState} {buffer : List Byte}
    (h : buffer.length < 4) :
    lenLoop st none buffer = (st, none, buffer) := by
  conv_lhs => rw [lenLoop]
  rw [dif_pos h]

theorem lenLoop_none_big {st : CacheState} {buffer : List Byte}
    (h : ¬ buffer.length < 4) :
    lenLoop st none buffer =
      lenLoop st (some (readU32BE buffer)) (buffer.drop 4) := by
  conv_lhs => rw [lenLoop]
  rw [dif_neg h]

theorem lenLoop_some_small {st : CacheState} {buffer : List Byte} {n : Nat}
    (h : buffer.length < n) :
    lenLoop st (some n) buffer = (st, some n, buffer) := by
  conv_lhs => rw [lenLoop]
  rw [if_pos h]

theorem lenLoop_some_big {st : CacheState} {buffer : List Byte} {n : Nat}
    (h : ¬ buffer.length < n) :
    lenLoop st (some n) buffer =
      lenLoop (handleFrame (buffer.take n) st) none (buffer.drop n) := by
  conv_lhs => rw [lenLoop]
  rw [if_neg h]

/-- The inline-handleFrame loop is the trace semantics folded through
handleFrame: same residual buffer, and the final cache is the fold of
handleFrame over the extracted frames. -/
theorem markerLoop_eq_markerStep :
    ∀ (fuel : Nat) (st : CacheState) (buffer : List Byte),
      buffer.length ≤ fuel →
      markerLoop st buffer =
        ((markerStep buffer).1.foldl (fun acc f => handleFrame f acc) st,
          (markerStep buffer).2) := by
  intro fuel
  induction fuel with
  | zero =>
    intro st buffer hf
    have hb : buffer = [] := List.length_eq_zero.mp (Nat.le_zero.mp hf)
    subst hb
    rw [markerLoop_no_soi (indexOf2_nil 255 216),
      markerStep_no_soi (indexOf2_nil 255 216)]
    simp
  | succ fuel ih =>
    intro st buffer hf
    cases hs : indexOf2 255 216 buffer with
    | none =>
      rw [markerLoop_no_soi hs, markerStep_no_soi hs]
      simp
    | some s =>
      cases he : indexOf2 255 217 (buffer.drop (s + 2)) with
      | none =>
        rw [markerLoop_no_eoi hs he, markerStep_no_eoi hs he]
        simp
      | some r =>
        rw [markerLoop_frame hs he, markerStep_frame hs he]
        have hlen := indexOf2_some_le hs
        have hnext : (buffer.drop (s + r + 4)).length ≤ fuel := by
          simp only [List.length_drop]
          omega
        rw [ih (handleFrame ((buffer.drop s).take (r + 4)) st)
          (buffer.drop (s + r + 4)) hnext]
        simp

theorem lenLoop_eq_lenExtract :
    ∀ (fuel : Nat) (st : CacheState) (pendingLen : Option Nat)
      (buffer : List Byte),
      2 * buffer.length + pendingLen.elim 0 (fun _ => 1) ≤ fuel →
      lenLoop st pendingLen buffer =
        ((lenExtract pendingLen buffer).1.foldl (fun acc f => handleFrame f acc) st,
          (lenExtract pendingLen buffer).2) := by
  intro fuel
  induction fuel with
  | zero =>
    intro st pendingLen buffer hf
    cases pendingLen with
    | none =>
      have hb : buffer.length < 4 := by
        simp only [Option.elim_none] at hf
        omega
      rw [lenLoop_none_small hb, lenExtract_none_small hb]
      simp
    | some n =>
      simp only [Option.elim_some] at hf
      omega
  | succ fuel ih =>
    intro st pendingLen buffer hf
    cases pendingLen with
    | none =>
      by_cases hb : buffer.length < 4
      · rw [lenLoop_none_small hb, lenExtract_none_small hb]
        simp
      · rw [lenLoop_none_big hb, lenExtract_none_big hb]
        apply ih
        simp only [List.length_drop, Option.elim_some, Option.elim_none] at hf ⊢
        omega
    | some n =>
      by_cases hb : buffer.length < n
      · rw [lenLoop_some_small hb, lenExtract_some_small hb]
        simp
      · rw [lenLoop_some_big hb, lenExtract_some_big hb]
        rw [ih (handleFrame (buffer.take n) st) none (buffer.drop n) (by
          simp only [List.length_drop, Option.elim_some, Option.elim_none] at hf ⊢
          omega)]
        simp

theorem head?_append_left {l : List Byte} (c : List Byte) (h : l ≠ []) :
    (l ++ c).head? = l.head? := by
  cases l with
  | nil => exact absurd rfl h
  | cons a t => rfl

/-- A byte that does not begin an SOI match can be skipped without changing
the extracted frame sequence. -/
theorem markerStep_cons_skip (x : Byte) (rest : List Byte)
    (h : indexOf2 255 216 (x :: rest) ≠ some 0) :
    (markerStep (x :: rest)).1 = (markerStep rest).1 := by
  cases rest with
  | nil =>
    rw [markerStep_no_soi (indexOf2_single 255 216 x),
      markerStep_no_soi (indexOf2_nil 255 216)]
  | cons y t =>
    by_cases hm : x = 255 ∧ y = 216
    · exact absurd (by rw [indexOf2_cons_cons, if_pos hm]) h
    · have hx : indexOf2 255 216 (x :: y :: t) =
          (indexOf2 255 216 (y :: t)).map (· + 1) := by
        rw [indexOf2_cons_cons, if_neg hm]
      cases hin : indexOf2 255 216 (y :: t) with
      | none =>
        have hx2 : indexOf2 255 216 (x :: y :: t) = none := by
          rw [hx, hin]; rfl
        rw [markerStep_no_soi hx2, markerStep_no_soi hin]
      | some s =>
        have hx2 : indexOf2 255 216 (x :: y :: t) = some (s + 1) := by
          rw [hx, hin]; rfl
        have hdrop : (x :: y :: t).drop (s + 1 + 2) = (y :: t).drop (s + 2) := by
          rw [show s + 1 + 2 = s + 2 + 1 by omega]
          exact List.drop_succ_cons
        cases heo : indexOf2 255 217 ((y :: t).drop (s + 2)) with
        | none =>
          have heo2 : indexOf2 255 217 ((x :: y :: t).drop (s + 1 + 2)) = none := by
            rw [hdrop]; exact heo
          rw [markerStep_no_eoi hx2 heo2, markerStep_no_eoi hin heo]
        | some r =>
          have heo2 : indexOf2 255 217 ((x :: y :: t).drop (s + 1 + 2)) = some r := by
            rw [hdrop]; exact heo
          rw [markerStep_frame hx2 heo2, markerStep_frame hin heo]
          have h1 : (x :: y :: t).drop (s + 1) = (y :: t).drop s :=
            List.drop_succ_cons
          have h2 : (x :: y :: t).drop (s + 1 + r + 4) = (y :: t).drop (s + r + 4) := by
            rw [show s + 1 + r + 4 = s + r + 4 + 1 by omega]
            exact List.drop_succ_cons
          rw [h1, h2]

/-- A prefix containing no SOI occurrence (even jointly with the retained
tail) can be discarded without changing the extracted frame sequence, as
long as the tail is kept nonempty.  This is why the high-water trim of the
jpeg-markers mode is invisible in the frame trace. -/
theorem markerStep_garbage :
    ∀ (d r c : List Byte), indexOf2 255 216 (d ++ r) = none → r ≠ [] →
      (markerStep (d ++ (r ++ c))).1 = (markerStep (r ++ c)).1 := by
  intro d
  induction d with
  | nil => intro r c _ _; simp
  | cons x d2 ih =>
    intro r c hno hr
    rw [List.cons_append] at hno
    rw [List.cons_append]
    have hne : d2 ++ r ≠ [] := by
      intro hnil
      rcases List.append_eq_nil.mp hnil with ⟨h1, h2⟩
      exact hr h2
    have hskip : indexOf2 255 216 (x :: (d2 ++ (r ++ c))) ≠ some 0 := by
      intro h0
      rcases indexOf2_cons_eq_zero_iff.mp h0 with ⟨hx, hh⟩
      rw [← List.append_assoc] at hh
      rw [head?_append_left c hne] at hh
      exact absurd (indexOf2_cons_eq_zero_iff.mpr ⟨hx, hh⟩)
        (by rw [hno]; intro hcon; cases hcon)
    rw [markerStep_cons_skip x (d2 ++ (r ++ c)) hskip]
    exact ih r c (indexOf2_cons_none hno) hr

theorem markerStep_no_soi_fst {buffer : List Byte}
    (h : indexOf2 255 216 buffer = none) : (markerStep buffer).1 = [] := by
  rw [markerStep_no_soi h]

theorem markerStep_no_soi_snd {buffer : List Byte}
    (h : indexOf2 255 216 buffer = none) :
    (markerStep buffer).2 =
      if buffer.length > 5 * 1024 * 1024 then
        buffer.drop (buffer.length - 1024 * 1024)
      else buffer := by
  rw [markerStep_no_soi h]

theorem markerStep_no_eoi_fst {buffer : List Byte} {s : Nat}
    (hs : indexOf2 255 216 buffer = some s)
    (he : indexOf2 255 217 (buffer.drop (s + 2)) = none) :
    (markerStep buffer).1 = [] := by
  rw [markerStep_no_eoi hs he]

theorem markerStep_no_eoi_snd {buffer : List Byte} {s : Nat}
    (hs : indexOf2 255 216 buffer = some s)
    (he : indexOf2 255 217 (buffer.drop (s + 2)) = none) :
    (markerStep buffer).2 = buffer := by
  rw [markerStep_no_eoi hs he]

theorem markerStep_frame_fst {buffer : List Byte} {s r : Nat}
    (hs : indexOf2 255 216 buffer = some s)
    (he : indexOf2 255 217 (buffer.drop (s + 2)) = some r) :
    (markerStep buffer).1 =
      (buffer.drop s).take (r + 4) :: (markerStep (buffer.drop (s + r + 4))).1 := by
  rw [markerStep_frame hs he]

theorem markerStep_frame_snd {buffer : List Byte} {s r : Nat}
    (hs : indexOf2 255 216 buffer = some s)
    (he : indexOf2 255 217 (buffer.drop (s + 2)) = some r) :
    (markerStep buffer).2 = (markerStep (buffer.drop (s + r + 4))).2 := by
  rw [markerStep_frame hs he]

/-- Draining an extended buffer equals draining the original buffer and
then draining its residue extended by the new bytes: the frame trace
composes across appends. -/
theorem markerStep_append :
    ∀ (fuel : Nat) (b c : List Byte), b.length ≤ fuel →
      (markerStep (b ++ c)).1 =
        (markerStep b).1 ++ (markerStep ((markerStep b).2 ++ c)).1 := by
  intro fuel
  induction fuel with
  | zero =>
    intro b c hf
    have hb : b = [] := List.length_eq_zero.mp (Nat.le_zero.mp hf)
    subst hb
    rw [markerStep_no_soi_fst (indexOf2_nil 255 216),
      markerStep_no_soi_snd (indexOf2_nil 255 216)]
    rw [List.length_nil, if_neg (by norm_num)]
    rw [List.nil_append, List.nil_append]
  | succ fuel ih =>
    intro b c hf
    cases hs : indexOf2 255 216 b with
    | none =>
      rw [markerStep_no_soi_fst hs, markerStep_no_soi_snd hs, List.nil_append]
      by_cases htrim : b.length > 5 * 1024 * 1024
      · rw [if_pos htrim]
        have hno : indexOf2 255 216
            (b.take (b.length - 1024 * 1024) ++ b.drop (b.length - 1024 * 1024)) = none := by
          rw [List.take_append_drop]
          exact hs
        have hne : b.drop (b.length - 1024 * 1024) ≠ [] := by
          have hl : (b.drop (b.length - 1024 * 1024)).length = 1024 * 1024 := by
            simp only [List.length_drop]
            omega
          intro hnil
          rw [hnil] at hl
          simp at hl
        have hb2 : b ++ c =
            b.take (b.length - 1024 * 1024) ++ (b.drop (b.length - 1024 * 1024) ++ c) := by
          rw [← List.append_assoc, List.take_append_drop]
        rw [hb2]
        exact markerStep_garbage (b.take (b.length - 1024 * 1024))
          (b.drop (b.length - 1024 * 1024)) c hno hne
      · rw [if_neg htrim]
    | some s =>
      cases he : indexOf2 255 217 (b.drop (s + 2)) with
      | none =>
        rw [markerStep_no_eoi_fst hs he, markerStep_no_eoi_snd hs he,
          List.nil_append]
      | some r =>
        have hsl := indexOf2_some_le hs
        have hel := indexOf2_some_le he
        simp only [List.length_drop] at hel
        have hsr : s + r + 4 ≤ b.length := by omega
        have hs2 : indexOf2 255 216 (b ++ c) = some s := indexOf2_append_some c hs
        have hdrop2 : (b ++ c).drop (s + 2) = b.drop (s + 2) ++ c :=
          List.drop_append_of_le_length (by omega)
        have he2 : indexOf2 255 217 ((b ++ c).drop (s + 2)) = some r := by
          rw [hdrop2]
          exact indexOf2_append_some c he
        rw [markerStep_frame_fst hs2 he2, markerStep_frame_fst hs he,
          markerStep_frame_snd hs he]
        have hfr : ((b ++ c).drop s).take (r + 4) = (b.drop s).take (r + 4) := by
          rw [List.drop_append_of_le_length (by omega),
            List.take_append_of_le_length (by simp only [List.length_drop]; omega)]
        have hbuf : (b ++ c).drop (s + r + 4) = b.drop (s + r + 4) ++ c :=
          List.drop_append_of_le_length (by omega)
        rw [hfr, hbuf]
        have hnext : (b.drop (s + r + 4)).length ≤ fuel := by
          simp only [List.length_drop]
          omega
        rw [ih (b.drop (s + r + 4)) c hnext, List.cons_append]

/-- The residual buffer of a drain run is stuck: running the drain loop on
it again extracts nothing and leaves it unchanged. -/
theorem markerStep_residual_stuck :
    ∀ (fuel : Nat) (b : List Byte), b.length ≤ fuel →
      markerStep (markerStep b).2 = ([], (markerStep b).2) := by
  intro fuel
  induction fuel with
  | zero =>
    intro b hf
    have hb : b = [] := List.length_eq_zero.mp (Nat.le_zero.mp hf)
    subst hb
    rw [markerStep_no_soi_snd (indexOf2_nil 255 216)]
    rw [List.length_nil, if_neg (by norm_num)]
    rw [markerStep_no_soi (indexOf2_nil 255 216)]
    rw [List.length_nil, if_neg (by norm_num)]
  | succ fuel ih =>
    intro b hf
    cases hs : indexOf2 255 216 b with
    | none =>
      rw [markerStep_no_soi_snd hs]
      by_cases htrim : b.length > 5 * 1024 * 1024
      · rw [if_pos htrim]
        have hno : indexOf2 255 216 (b.drop (b.length - 1024 * 1024)) = none :=
          indexOf2_drop_none _ hs
        rw [markerStep_no_soi hno]
        rw [if_neg (by simp only [List.length_drop]; omega)]
      · rw [if_neg htrim]
        rw [markerStep_no_soi hs]
        rw [if_neg htrim]
    | some s =>
      cases he : indexOf2 255 217 (b.drop (s + 2)) with
      | none =>
        rw [markerStep_no_eoi_snd hs he]
        exact markerStep_no_eoi hs he
      | some r =>
        rw [markerStep_frame_snd hs he]
        have hsl := indexOf2_some_le hs
        exact ih (b.drop (s + r + 4)) (by simp only [List.length_drop]; omega)

/-- Chunked draining yields the same frame trace as draining the whole
concatenated stream at once, starting from any stuck buffer. -/
theorem processChunksMarker_join :
    ∀ (chunks : List (List Byte)) (b : List Byte),
      markerStep b = ([], b) →
      (processChunksMarker b chunks).1 = (markerStep (b ++ chunks.flatten)).1 := by
  intro chunks
  induction chunks with
  | nil =>
    intro b hstuck
    simp only [processChunksMarker, List.flatten_nil, List.append_nil]
    rw [hstuck]
  | cons ch rest ih =>
    intro b hstuck
    simp only [processChunksMarker, List.flatten_cons]
    have hstuck2 : markerStep (markerStep (b ++ ch)).2 = ([], (markerStep (b ++ ch)).2) :=
      markerStep_residual_stuck (b ++ ch).length (b ++ ch) (Nat.le_refl _)
    rw [ih (markerStep (b ++ ch)).2 hstuck2]
    rw [← List.append_assoc]
    rw [markerStep_append (b ++ ch).length (b ++ ch) rest.flatten (Nat.le_refl _)]

theorem lenExtract_some_big_fst {buffer : List Byte} {n : Nat}
    (h : ¬ buffer.length < n) :
    (lenExtract (some n) buffer).1 =
      buffer.take n :: (lenExtract none (buffer.drop n)).1 := by
  rw [lenExtract_some_big h]

theorem lenExtract_some_big_snd {buffer : List Byte} {n : Nat}
    (h : ¬ buffer.length < n) :
    (lenExtract (some n) buffer).2 = (lenExtract none (buffer.drop n)).2 := by
  rw [lenExtract_some_big h]

/-- Draining an extended buffer in len-prefix mode equals draining the
original buffer and then draining its residual state extended by the new
bytes. -/
theorem lenExtract_append :
    ∀ (fuel : Nat) (p : Option Nat) (b c : List Byte),
      2 * b.length + p.elim 0 (fun _ => 1) ≤ fuel →
      (lenExtract p (b ++ c)).1 =
        (lenExtract p b).1 ++
          (lenExtract (lenExtract p b).2.1 ((lenExtract p b).2.2 ++ c)).1 := by
  intro fuel
  induction fuel with
  | zero =>
    intro p b c hf
    cases p with
    | none =>
      have hb : b.length < 4 := by
        simp only [Option.elim_none] at hf
        omega
      rw [lenExtract_none_small hb]
      dsimp only
      rw [List.nil_append]
    | some n =>
      simp only [Option.elim_some] at hf
      exact absurd hf (by omega)
  | succ fuel ih =>
    intro p b c hf
    cases p with
    | none =>
      by_cases hb : b.length < 4
      · rw [lenExtract_none_small hb]
        dsimp only
        rw [List.nil_append]
      · have hbc : ¬ (b ++ c).length < 4 := by
          simp only [List.length_append]
          omega
        rw [lenExtract_none_big hbc, lenExtract_none_big hb]
        rw [readU32BE_append (by omega), List.drop_append_of_le_length (by omega)]
        apply ih
        simp only [List.length_drop, Option.elim_some, Option.elim_none] at hf ⊢
        omega
    | some n =>
      by_cases hb : b.length < n
      · rw [lenExtract_some_small hb]
        dsimp only
        rw [List.nil_append]
      · have hbc : ¬ (b ++ c).length < n := by
          simp only [List.length_append]
          omega
        rw [lenExtract_some_big_fst hbc, lenExtract_some_big_fst hb,
          lenExtract_some_big_snd hb]
        rw [List.take_append_of_le_length (by omega),
          List.drop_append_of_le_length (by omega)]
        rw [ih none (b.drop n) c (by
          simp only [List.length_drop, Option.elim_some, Option.elim_none] at hf ⊢
          omega)]
        rw [List.cons_append]

/-- The residual pendingLen and buffer of a len-prefix drain run are
stuck: running the drain loop on them again extracts nothing and changes
nothing. -/
theorem lenExtract_residual_stuck :
    ∀ (fuel : Nat) (p : Option Nat) (b : List Byte),
      2 * b.length + p.elim 0 (fun _ => 1) ≤ fuel →
      lenExtract (lenExtract p b).2.1 (lenExtract p b).2.2 =
        ([], (lenExtract p b).2.1, (lenExtract p b).2.2) := by
  intro fuel
  induction fuel with
  | zero =>
    intro p b hf
    cases p with
    | none =>
      have hb : b.length < 4 := by
        simp only [Option.elim_none] at hf
        omega
      rw [lenExtract_none_small hb]
      dsimp only
      exact lenExtract_none_small hb
    | some n =>
      simp only [Option.elim_some] at hf
      exact absurd hf (by omega)
  | succ fuel ih =>
    intro p b hf
    cases p with
    | none =>
      by_cases hb : b.length < 4
      · rw [lenExtract_none_small hb]
        dsimp only
        exact lenExtract_none_small hb
      · rw [lenExtract_none_big hb]
        apply ih
        simp only [List.length_drop, Option.elim_some, Option.elim_none] at hf ⊢
        omega
    | some n =>
      by_cases hb : b.length < n
      · rw [lenExtract_some_small hb]
        dsimp only
        exact lenExtract_some_small hb
      · rw [lenExtract_some_big_snd hb]
        apply ih
        simp only [List.length_drop, Option.elim_some, Option.elim_none] at hf ⊢
        omega

theorem elim_le_one (p : Option Nat) (x : Nat) :
    2 * x + p.elim 0 (fun _ => 1) ≤ 2 * x + 1 := by
  cases p with
  | none => simp
  | some n => simp

/-- Chunked draining in len-prefix mode yields the same frame trace as
draining the whole concatenated stream at once, starting from any stuck
state. -/
theorem processChunksLen_join :
    ∀ (chunks : List (List Byte)) (p : Option Nat) (b : List Byte),
      lenExtract p b = ([], p, b) →
      (processChunksLen p b chunks).1 = (lenExtract p (b ++ chunks.flatten)).1 := by
  intro chunks
  induction chunks with
  | nil =>
    intro p b hstuck
    simp only [processChunksLen, List.flatten_nil, List.append_nil]
    rw [hstuck]
  | cons ch rest ih =>
    intro p b hstuck
    simp only [processChunksLen, List.flatten_cons]
    have hstuck2 := lenExtract_residual_stuck (2 * (b ++ ch).length + 1) p (b ++ ch)
      (elim_le_one p (b ++ ch).length)
    rw [ih (lenExtract p (b ++ ch)).2.1 (lenExtract p (b ++ ch)).2.2 hstuck2]
    rw [← List.append_assoc]
    rw [lenExtract_append (2 * (b ++ ch).length + 1) p (b ++ ch) rest.flatten
      (elim_le_one p (b ++ ch).length)]

/-- C1: for every byte stream and every way of splitting it into chunks,
marker-mode (jpeg-markers) extraction over the per-connection accumulation
buffer yields the same sequence of extracted frames regardless of where
the chunk boundaries fall, including when the buffer exceeds the 5 MB
high-water mark and is trimmed to its last 1 MB. -/
theorem marker_chunking_invariance (chunks1 chunks2 : List (List Byte))
    (h : chunks1.flatten = chunks2.flatten) :
    (processChunksMarker [] chunks1).1 = (processChunksMarker [] chunks2).1 := by
  have h0 : markerStep ([] : List Byte) = ([], ([] : List Byte)) := by
    rw [markerStep_no_soi (indexOf2_nil 255 216)]
    rw [List.length_nil, if_neg (by norm_num)]
  rw [processChunksMarker_join chunks1 [] h0,
    processChunksMarker_join chunks2 [] h0, h]

theorem marker_chunking_invariance_witness :
    ([[255, 216, 97, 255, 217]] : List (List Byte)).flatten =
        ([[255], [216, 97], [255, 217]] : List (List Byte)).flatten
    ∧ (processChunksMarker [] [[255, 216, 97, 255, 217]]).1 =
        (processChunksMarker [] [[255], [216, 97], [255, 217]]).1 :=
  ⟨rfl, marker_chunking_invariance [[255, 216, 97, 255, 217]]
    [[255], [216, 97], [255, 217]] rfl⟩

/-- C2: for every byte stream and every way of splitting it into chunks,
length-prefix extraction (read a 4-byte big-endian unsigned length,
consume the header immediately, then emit exactly that many following
bytes as one frame) yields the same sequence of extracted frames
regardless of how chunk boundaries fall, with the pendingLen state
carrying a partially-satisfied header across chunks. -/
theorem lenprefix_chunking_invariance (chunks1 chunks2 : List (List Byte))
    (h : chunks1.flatten = chunks2.flatten) :
    (processChunksLen none [] chunks1).1 = (processChunksLen none [] chunks2).1 := by
  have h0 : lenExtract none ([] : List Byte) = ([], none, ([] : List Byte)) :=
    lenExtract_none_small (by simp)
  rw [processChunksLen_join chunks1 none [] h0,
    processChunksLen_join chunks2 none [] h0, h]

theorem lenprefix_chunking_invariance_witness :
    ([[0, 0, 0, 5, 65, 66, 67, 68, 69]] : List (List Byte)).flatten =
        ([[0, 0], [0, 5, 65], [66, 67, 68], [69]] : List (List Byte)).flatten
    ∧ (processChunksLen none [] [[0, 0, 0, 5, 65, 66, 67, 68, 69]]).1 =
        (processChunksLen none [] [[0, 0], [0, 5, 65], [66, 67, 68], [69]]).1 :=
  ⟨rfl, lenprefix_chunking_invariance [[0, 0, 0, 5, 65, 66, 67, 68, 69]]
    [[0, 0], [0, 5, 65], [66, 67, 68], [69]] rfl⟩

/-- Fields of the /stats JSON snapshot that are derived from the
latest-frame cache (the endpoint additionally reports client counts and
configuration, which do not involve the cache). -/
structure Stats where
  framesReceived : Nat
  bytesLastFrame : Nat
deriving Repr, DecidableEq

/-- The cache-derived part of the /stats response. -/
def statsOf (st : CacheState) : Stats := ⟨st.framesReceived, st.bytesLastFrame⟩

/-- Cache coherence: whenever a frame is cached, bytesLastFrame is its
length and at least one frame has been counted. -/
def cacheInv (st : CacheState) : Prop :=
  ∀ f, st.latestFrame = some f →
    st.bytesLastFrame = f.length ∧ 1 ≤ st.framesReceived

/-- C3: under both framing modes, a frame shorter than 128 bytes is never
stored in the latest-frame cache (latestFrame, framesReceived and
bytesLastFrame are all unchanged by it), yet the accumulation buffer is
still advanced past the frame bytes exactly as for a valid frame: the
residual buffer (and pendingLen) of the drain loop never depends on the
cache state, matching the pure extractor. -/
theorem short_frame_never_cached :
    (∀ (frame : List Byte) (st : CacheState), frame.length < 128 →
        handleFrame frame st = st)
    ∧ (∀ (st : CacheState) (buffer : List Byte),
        (markerLoop st buffer).2 = (markerStep buffer).2)
    ∧ (∀ (st : CacheState) (p : Option Nat) (buffer : List Byte),
        (lenLoop st p buffer).2 = (lenExtract p buffer).2) := by
  refine ⟨?_, ?_, ?_⟩
  · intro frame st h
    unfold handleFrame
    rw [if_pos h]
  · intro st buffer
    rw [markerLoop_eq_markerStep buffer.length st buffer (Nat.le_refl _)]
  · intro st p buffer
    rw [lenLoop_eq_lenExtract (2 * buffer.length + 1) st p buffer
      (elim_le_one p buffer.length)]

theorem short_frame_never_cached_witness :
    (List.length [1, 2, 3] < 128
      ∧ handleFrame [1, 2, 3] ⟨some [9], 5, 1⟩ = ⟨some [9], 5, 1⟩)
    ∧ (markerLoop ⟨some [9], 5, 1⟩ [255, 216, 0, 255, 217]).2 =
        (markerStep [255, 216, 0, 255, 217]).2
    ∧ (lenLoop ⟨some [9], 5, 1⟩ none [0, 0, 0, 1, 7]).2 =
        (lenExtract none [0, 0, 0, 1, 7]).2 :=
  ⟨⟨by decide, short_frame_never_cached.1 [1, 2, 3] ⟨some [9], 5, 1⟩ (by decide)⟩,
    short_frame_never_cached.2.1 ⟨some [9], 5, 1⟩ [255, 216, 0, 255, 217],
    short_frame_never_cached.2.2 ⟨some [9], 5, 1⟩ none [0, 0, 0, 1, 7]⟩

/-- C9: the cache invariant (bytesLastFrame equals the length of the
cached frame and framesReceived is at least 1 whenever a frame is cached)
holds initially and is preserved by every handleFrame call, so the /stats
snapshot last-frame size always describes the frame currently cached. -/
theorem latest_frame_cache_invariant :
    cacheInv initialCache
    ∧ (∀ (frame : List Byte) (st : CacheState), cacheInv st →
        cacheInv (handleFrame frame st))
    ∧ (∀ (st : CacheState) (f : List Byte), cacheInv st →
        st.latestFrame = some f → (statsOf st).bytesLastFrame = f.length) := by
  refine ⟨?_, ?_, ?_⟩
  · intro f h
    simp [initialCache] at h
  · intro frame st hinv
    unfold handleFrame
    split
    · exact hinv
    · intro f hf
      have hf2 : some frame = some f := hf
      injection hf2 with hfe
      subst hfe
      exact ⟨rfl, Nat.succ_le_succ (Nat.zero_le _)⟩
  · intro st f hinv hlatest
    exact (hinv f hlatest).1

theorem latest_frame_cache_invariant_witness :
    cacheInv (handleFrame (List.replicate 200 7) initialCache)
    ∧ (statsOf (handleFrame (List.replicate 200 7) initialCache)).bytesLastFrame = 200 := by
  have h1 : cacheInv (handleFrame (List.replicate 200 7) initialCache) :=
    latest_frame_cache_invariant.2.1 (List.replicate 200 7) initialCache
      latest_frame_cache_invariant.1
  refine ⟨h1, ?_⟩
  have h2 : (handleFrame (List.replicate 200 7) initialCache).latestFrame =
      some (List.replicate 200 7) := by
    unfold handleFrame
    rw [if_neg (by simp only [List.length_replicate]; omega)]
  have h3 := latest_frame_cache_invariant.2.2
    (handleFrame (List.replicate 200 7) initialCache) (List.replicate 200 7) h1 h2
  rw [h3]
  rw [List.length_replicate]

/-- C5: in marker mode, whenever the buffer contains an SOI start marker
but no subsequent EOI end marker, the drain loop returns without
extracting and retains the buffer in full; the high-water trimming never
applies while a start marker is pending, regardless of buffer size. -/
theorem pending_soi_retains_buffer (buffer : List Byte) (s : Nat)
    (hs : indexOf2 255 216 buffer = some s)
    (he : indexOf2 255 217 (buffer.drop (s + 2)) = none) :
    markerStep buffer = ([], buffer) :=
  markerStep_no_eoi hs he

/-- A 6 MB buffer holding an SOI and no EOI: well above the high-water
mark, yet retained in full. -/
def pendingBuf : List Byte := 255 :: 216 :: List.replicate 6000000 0

theorem pending_soi_retains_buffer_witness :
    indexOf2 255 216 pendingBuf = some 0
    ∧ indexOf2 255 217 (pendingBuf.drop (0 + 2)) = none
    ∧ pendingBuf.length > 5 * 1024 * 1024
    ∧ markerStep pendingBuf = ([], pendingBuf) := by
  have hs : indexOf2 255 216 pendingBuf = some 0 := by
    unfold pendingBuf
    rw [indexOf2_cons_cons]
    rw [if_pos ⟨rfl, rfl⟩]
  have he : indexOf2 255 217 (pendingBuf.drop (0 + 2)) = none := by
    show indexOf2 255 217 (List.replicate 6000000 0) = none
    exact indexOf2_replicate_none (by norm_num) 6000000
  refine ⟨hs, he, ?_, pending_soi_retains_buffer pendingBuf 0 hs he⟩
  have hlen : pendingBuf.length = 6000002 := by
    unfold pendingBuf
    rw [List.length_cons, List.length_cons, List.length_replicate]
  rw [hlen]
  norm_num

/-- Marker mode consumes at least four bytes per extracted frame. -/
theorem markerStep_length_le :
    ∀ (fuel : Nat) (b : List Byte), b.length ≤ fuel →
      (markerStep b).2.length + 4 * (markerStep b).1.length ≤ b.length := by
  intro fuel
  induction fuel with
  | zero =>
    intro b hf
    have hb : b = [] := List.length_eq_zero.mp (Nat.le_zero.mp hf)
    subst hb
    rw [markerStep_no_soi_fst (indexOf2_nil 255 216),
      markerStep_no_soi_snd (indexOf2_nil 255 216)]
    rw [List.length_nil, if_neg (by norm_num)]
    simp
  | succ fuel ih =>
    intro b hf
    cases hs : indexOf2 255 216 b with
    | none =>
      rw [markerStep_no_soi_fst hs, markerStep_no_soi_snd hs]
      split
      · simp only [List.length_drop, List.length_nil]
        omega
      · simp
    | some s =>
      cases he : indexOf2 255 217 (b.drop (s + 2)) with
      | none =>
        rw [markerStep_no_eoi_fst hs he, markerStep_no_eoi_snd hs he]
        simp
      | some r =>
        rw [markerStep_frame_fst hs he, markerStep_frame_snd hs he]
        have hsl := indexOf2_some_le hs
        have hel := indexOf2_some_le he
        simp only [List.length_drop] at hel
        have hrec := ih (b.drop (s + r + 4)) (by simp only [List.length_drop]; omega)
        simp only [List.length_drop] at hrec
        simp only [List.length_cons]
        omega

/-- Every frame extracted in marker mode spans at least the two markers,
four bytes. -/
theorem markerStep_frames_ge_four :
    ∀ (fuel : Nat) (b f : List Byte), b.length ≤ fuel →
      f ∈ (markerStep b).1 → 4 ≤ f.length := by
  intro fuel
  induction fuel with
  | zero =>
    intro b f hf hmem
    have hb : b = [] := List.length_eq_zero.mp (Nat.le_zero.mp hf)
    subst hb
    rw [markerStep_no_soi_fst (indexOf2_nil 255 216)] at hmem
    simp at hmem
  | succ fuel ih =>
    intro b f hf hmem
    cases hs : indexOf2 255 216 b with
    | none =>
      rw [markerStep_no_soi_fst hs] at hmem
      simp at hmem
    | some s =>
      cases he : indexOf2 255 217 (b.drop (s + 2)) with
      | none =>
        rw [markerStep_no_eoi_fst hs he] at hmem
        simp at hmem
      | some r =>
        rw [markerStep_frame_fst hs he] at hmem
        have hsl := indexOf2_some_le hs
        have hel := indexOf2_some_le he
        simp only [List.length_drop] at hel
        rcases List.mem_cons.mp hmem with hfh | hft
        · subst hfh
          simp only [List.length_take, List.length_drop]
          omega
        · exact ih (b.drop (s + r + 4)) f (by simp only [List.length_drop]; omega) hft

/-- Len-prefix mode consumes four header bytes plus the declared body per
extracted frame; a carried pendingLen accounts for four header bytes
already consumed in an earlier run. -/
theorem lenExtract_length_le :
    ∀ (fuel : Nat) (p : Option Nat) (b : List Byte),
      2 * b.length + p.elim 0 (fun _ => 1) ≤ fuel →
      (lenExtract p b).2.2.length + 4 * (lenExtract p b).1.length ≤
        b.length + p.elim 0 (fun _ => 4) := by
  intro fuel
  induction fuel with
  | zero =>
    intro p b hf
    cases p with
    | none =>
      have hb : b.length < 4 := by
        simp only [Option.elim_none] at hf
        omega
      rw [lenExtract_none_small hb]
      simp
    | some n =>
      simp only [Option.elim_some] at hf
      exact absurd hf (by omega)
  | succ fuel ih =>
    intro p b hf
    cases p with
    | none =>
      by_cases hb : b.length < 4
      · rw [lenExtract_none_small hb]
        simp
      · rw [lenExtract_none_big hb]
        have hrec := ih (some (readU32BE b)) (b.drop 4) (by
          simp only [List.length_drop, Option.elim_some, Option.elim_none] at hf ⊢
          omega)
        simp only [List.length_drop, Option.elim_some, Option.elim_none] at hrec ⊢
        omega
    | some n =>
      by_cases hb : b.length < n
      · rw [lenExtract_some_small hb]
        simp
      · rw [lenExtract_some_big_fst hb, lenExtract_some_big_snd hb]
        have hrec := ih none (b.drop n) (by
          simp only [List.length_drop, Option.elim_some, Option.elim_none] at hf ⊢
          omega)
        simp only [List.length_drop, Option.elim_some, Option.elim_none,
          List.length_cons] at hrec ⊢
        omega

/-- C10: the drain loops terminate on every finite buffer and state (the
extractors are total functions), and each completed iteration strictly
consumes from the front of the buffer: marker mode consumes at least four
bytes per frame (a marker-to-marker span is at least four bytes), and
len-prefix mode consumes a four-byte header plus the declared body per
frame, with declared length 0 covered by the carried-header bound. -/
theorem drain_loop_progress :
    (∀ buffer : List Byte,
        (markerStep buffer).2.length + 4 * (markerStep buffer).1.length ≤
          buffer.length)
    ∧ (∀ (buffer f : List Byte), f ∈ (markerStep buffer).1 → 4 ≤ f.length)
    ∧ (∀ buffer : List Byte,
        (lenExtract none buffer).2.2.length +
          4 * (lenExtract none buffer).1.length ≤ buffer.length)
    ∧ (∀ (n : Nat) (buffer : List Byte),
        (lenExtract (some n) buffer).2.2.length +
          4 * (lenExtract (some n) buffer).1.length ≤ buffer.length + 4) := by
  refine ⟨?_, ?_, ?_, ?_⟩
  · intro buffer
    exact markerStep_length_le buffer.length buffer (Nat.le_refl _)
  · intro buffer f hmem
    exact markerStep_frames_ge_four buffer.length buffer f (Nat.le_refl _) hmem
  · intro buffer
    have h := lenExtract_length_le (2 * buffer.length + 1) none buffer
      (elim_le_one none buffer.length)
    simpa using h
  · intro n buffer
    have h := lenExtract_length_le (2 * buffer.length + 1) (some n) buffer
      (elim_le_one (some n) buffer.length)
    simpa using h

theorem markerStep_small_example :
    markerStep [255, 216, 255, 217] = ([[255, 216, 255, 217]], []) := by
  have hs : indexOf2 255 216 [255, 216, 255, 217] = some 0 := by decide
  have he : indexOf2 255 217 (([255, 216, 255, 217] : List Byte).drop (0 + 2)) =
      some 0 := by decide
  rw [markerStep_frame hs he]
  have hd : ([255, 216, 255, 217] : List Byte).drop (0 + 0 + 4) = [] := by decide
  rw [hd]
  rw [markerStep_no_soi (indexOf2_nil 255 216)]
  rw [List.length_nil, if_neg (by norm_num)]
  decide

theorem drain_loop_progress_witness :
    [255, 216, 255, 217] ∈ (markerStep ([255, 216, 255, 217] : List Byte)).1
    ∧ 4 ≤ ([255, 216, 255, 217] : List Byte).length
    ∧ (lenExtract (some 0) ([] : List Byte)).2.2.length +
        4 * (lenExtract (some 0) ([] : List Byte)).1.length ≤
        ([] : List Byte).length + 4 := by
  have hmem : [255, 216, 255, 217] ∈ (markerStep ([255, 216, 255, 217] : List Byte)).1 := by
    rw [markerStep_small_example]
    decide
  exact ⟨hmem,
    drain_loop_progress.2.1 [255, 216, 255, 217] [255, 216, 255, 217] hmem,
    drain_loop_progress.2.2.2 0 []⟩

/-- Garbage prefix with no SOI occurrence, longer than the 5 MB
high-water mark. -/
def cexGarbage : List Byte := List.replicate 5242881 0

/-- A 104-byte frame: SOI, 100 filler bytes, EOI. -/
def cexFrame : List Byte := 255 :: 216 :: (List.replicate 100 97 ++ [255, 217])

/-- The C4 scenario buffer: over-5 MB garbage followed by a complete
SOI..EOI frame. -/
def cexBuf : List Byte := cexGarbage ++ cexFrame

theorem cex_hs : indexOf2 255 216 cexBuf = some 5242881 := by
  unfold cexBuf cexGarbage
  rw [indexOf2_replicate_append (by norm_num) 5242881 cexFrame]
  unfold cexFrame
  rw [indexOf2_cons_cons, if_pos ⟨rfl, rfl⟩]
  simp

theorem cex_he : indexOf2 255 217 (cexBuf.drop (5242881 + 2)) = some 100 := by
  have hd : cexBuf.drop (5242881 + 2) = List.replicate 100 97 ++ [255, 217] := by
    unfold cexBuf cexGarbage cexFrame
    rw [← List.drop_drop]
    rw [List.drop_left' (by rw [List.length_replicate])]
    rfl
  rw [hd]
  rw [indexOf2_replicate_append (by norm_num) 100 [255, 217]]
  rw [indexOf2_cons_cons, if_pos ⟨rfl, rfl⟩]
  simp

/-- C4 counterexample: a buffer of over-5 MB garbage followed by a
complete SOI..EOI frame is NOT trimmed to a 1 MB garbage tail; the frame
is extracted and the whole garbage prefix is discarded, leaving an empty
residual buffer. -/
theorem garbage_frame_trim_counterexample :
    cexBuf.length > 5 * 1024 * 1024
    ∧ markerStep cexBuf = ([cexFrame], [])
    ∧ (markerStep cexBuf).2.length ≠ 1024 * 1024 := by
  have hlen : cexBuf.length = 5242985 := by
    unfold cexBuf cexGarbage cexFrame
    rw [List.length_append, List.length_replicate, List.length_cons,
      List.length_cons, List.length_append, List.length_replicate]
    norm_num
  have hstep : markerStep cexBuf = ([cexFrame], []) := by
    rw [markerStep_frame cex_hs cex_he]
    have hdrop : cexBuf.drop 5242881 = cexFrame := by
      unfold cexBuf cexGarbage
      exact List.drop_left' (by rw [List.length_replicate])
    have htake : cexFrame.take (100 + 4) = cexFrame := by
      apply List.take_of_length_le
      unfold cexFrame
      rw [List.length_cons, List.length_cons, List.length_append,
        List.length_replicate]
      norm_num
    have hrest : cexBuf.drop (5242881 + 100 + 4) = [] := by
      apply List.drop_eq_nil_of_le
      rw [hlen]
    rw [hdrop, htake, hrest]
    rw [markerStep_no_soi (indexOf2_nil 255 216)]
    rw [List.length_nil, if_neg (by norm_num)]
  refine ⟨by rw [hlen]; norm_num, hstep, by rw [hstep]; simp⟩

/-- C4 amended: the high-water trim applies exactly when the buffer holds
no SOI at all: such a buffer over 5 MB is trimmed to exactly its last
1 MB, no more and no less; when a complete SOI..EOI frame is present the
frame is extracted instead and the garbage prefix before it is discarded
entirely, with no high-water trim. -/
theorem no_soi_highwater_trim (buffer : List Byte)
    (hs : indexOf2 255 216 buffer = none)
    (hlen : buffer.length > 5 * 1024 * 1024) :
    markerStep buffer = ([], buffer.drop (buffer.length - 1024 * 1024))
    ∧ (markerStep buffer).2.length = 1024 * 1024 := by
  have h := markerStep_no_soi hs
  rw [if_pos hlen] at h
  refine ⟨h, ?_⟩
  rw [h]
  dsimp only
  rw [List.length_drop]
  omega

theorem no_soi_highwater_trim_witness :
    indexOf2 255 216 cexGarbage = none
    ∧ cexGarbage.length > 5 * 1024 * 1024
    ∧ markerStep cexGarbage = ([], cexGarbage.drop (cexGarbage.length - 1024 * 1024))
    ∧ (markerStep cexGarbage).2.length = 1024 * 1024 := by
  have h1 : indexOf2 255 216 cexGarbage = none := by
    unfold cexGarbage
    exact indexOf2_replicate_none (by norm_num) 5242881
  have h2 : cexGarbage.length > 5 * 1024 * 1024 := by
    unfold cexGarbage
    rw [List.length_replicate]
    norm_num
  have h := no_soi_highwater_trim cexGarbage h1 h2
  exact ⟨h1, h2, h.1, h.2⟩

/-- EMIT_FPS of the ESM variant: the configured rate clamped below by 1,
modelling EMIT_FPS = Math.max(1, Number(process.env.EMIT_FPS or 12)). -/
def EMIT_FPS (envFps : Nat) : Nat := max 1 envFps

/-- The argument the ESM variant passes to setInterval for the MJPEG
broadcast: Math.floor(1000 / EMIT_FPS). -/
def broadcastDelayArg (envFps : Nat) : Nat := 1000 / EMIT_FPS envFps

/-- The argument the Socket.IO variant passes to setInterval:
Math.max(1, Math.floor(1000 / EMIT_FPS)). -/
def broadcastDelayArgClamped (fps : Nat) : Nat := max 1 (1000 / fps)

/-- Modelled from the Node.js timers documentation: setInterval replaces
a delay smaller than 1 ms or larger than 2147483647 ms by 1 ms, so this
is the actual period of the repeating task for a given argument. -/
def nodeTimerDelay (d : Nat) : Nat :=
  if d < 1 ∨ d > 2147483647 then 1 else d

/-- C6: the broadcast scheduler repeating task has period exactly
max(1, floor(1000 / emitFps)) milliseconds for every configured emission
rate, in both source variants, and in particular never less than 1 ms.
The ESM variant relies on the Node clamp of sub-1 ms delays; the
Socket.IO variant clamps explicitly. -/
theorem broadcast_period_max1 (envFps fps : Nat) (_hfps : 1 ≤ fps) :
    nodeTimerDelay (broadcastDelayArg envFps) = max 1 (1000 / EMIT_FPS envFps)
    ∧ 1 ≤ nodeTimerDelay (broadcastDelayArg envFps)
    ∧ nodeTimerDelay (broadcastDelayArgClamped fps) = max 1 (1000 / fps)
    ∧ 1 ≤ nodeTimerDelay (broadcastDelayArgClamped fps) := by
  have hb1 : 1000 / EMIT_FPS envFps ≤ 1000 := Nat.div_le_self 1000 (EMIT_FPS envFps)
  have hb2 : 1000 / fps ≤ 1000 := Nat.div_le_self 1000 fps
  have hfps2 : 1 ≤ 1000 / fps ∨ fps = 0 ∨ 1000 < fps := by
    rcases Nat.lt_or_ge 1000 fps with h | h
    · exact Or.inr (Or.inr h)
    · rcases Nat.eq_zero_or_pos fps with h0 | h0
      · exact Or.inr (Or.inl h0)
      · exact Or.inl (Nat.one_le_div_iff h0 |>.mpr h)
  unfold nodeTimerDelay broadcastDelayArg broadcastDelayArgClamped
  refine ⟨?_, ?_, ?_, ?_⟩
  · split <;> omega
  · split <;> omega
  · split <;> omega
  · split <;> omega

theorem broadcast_period_max1_witness :
    1 ≤ 12
    ∧ (nodeTimerDelay (broadcastDelayArg 2000) = max 1 (1000 / EMIT_FPS 2000)
       ∧ 1 ≤ nodeTimerDelay (broadcastDelayArg 2000)
       ∧ nodeTimerDelay (broadcastDelayArgClamped 12) = max 1 (1000 / 12)
       ∧ 1 ≤ nodeTimerDelay (broadcastDelayArgClamped 12))
    ∧ nodeTimerDelay (broadcastDelayArg 2000) = 1 :=
  ⟨by norm_num, broadcast_period_max1 2000 12 (by norm_num), by decide⟩

/-- Deleting a client from the registry, modelling mjpegClients.delete:
every occurrence is removed; deleting an absent client changes nothing. -/
def setDelete (reg : List Nat) (c : Nat) : List Nat :=
  reg.filter (fun d => d != c)

/-- The observable outcome of one broadcast tick: clients successfully
written to, the final registry, and clients whose sinks were closed after
a write failure. -/
structure TickResult where
  received : List Nat
  registry : List Nat
  closed : List Nat
deriving Repr, DecidableEq

/-- The for-loop of one broadcast tick over the Array.from snapshot of
the registry: a successful write records the client in received; a
throwing write deletes the client from the registry and ends its sink
(recorded in closed), and the loop continues with the remaining
clients. -/
def tickLoop (w : Nat → Bool) : List Nat → List Nat → TickResult
  | [], reg => ⟨[], reg, []⟩
  | c :: rest, reg =>
      if w c then
        let out := tickLoop w rest reg
        ⟨c :: out.received, out.registry, out.closed⟩
      else
        let out := tickLoop w rest (setDelete reg c)
        ⟨out.received, out.registry, c :: out.closed⟩

/-- One broadcast tick: nothing happens without a cached frame or with an
empty registry; otherwise every snapshotted client is written to with
per-client failure handling. -/
def tick (w : Nat → Bool) (latestFrame : Option (List Byte)) (reg : List Nat) :
    TickResult :=
  if latestFrame = none ∨ reg = [] then ⟨[], reg, []⟩ else tickLoop w reg reg

theorem not_mem_setDelete (reg : List Nat) (c : Nat) : c ∉ setDelete reg c := by
  unfold setDelete
  intro hmem
  rcases List.mem_filter.mp hmem with ⟨h1, h2⟩
  simp at h2

theorem setDelete_not_mem {reg : List Nat} {c : Nat} (h : c ∉ reg) :
    setDelete reg c = reg := by
  unfold setDelete
  apply List.filter_eq_self.mpr
  intro a ha
  simp only [bne_iff_ne, ne_eq, decide_eq_true_eq]
  intro heq
  subst heq
  exact h ha

theorem mem_setDelete_of_ne {reg : List Nat} {c d : Nat} (hd : d ∈ reg)
    (hne : d ≠ c) : d ∈ setDelete reg c := by
  unfold setDelete
  exact List.mem_filter.mpr ⟨hd, by simp [hne]⟩

theorem setDelete_idem (reg : List Nat) (c : Nat) :
    setDelete (setDelete reg c) c = setDelete reg c :=
  setDelete_not_mem (not_mem_setDelete reg c)

theorem tickLoop_received (w : Nat → Bool) :
    ∀ (snap reg : List Nat),
      (tickLoop w snap reg).received = snap.filter (fun d => w d) := by
  intro snap
  induction snap with
  | nil => intro reg; rfl
  | cons c rest ih =>
    intro reg
    by_cases hw : w c
    · simp [tickLoop, hw, List.filter_cons, ih reg]
    · simp [tickLoop, hw, List.filter_cons, ih (setDelete reg c)]

theorem tickLoop_closed (w : Nat → Bool) :
    ∀ (snap reg : List Nat),
      (tickLoop w snap reg).closed = snap.filter (fun d => ! w d) := by
  intro snap
  induction snap with
  | nil => intro reg; rfl
  | cons c rest ih =>
    intro reg
    by_cases hw : w c
    · simp [tickLoop, hw, List.filter_cons, ih reg]
    · simp [tickLoop, hw, List.filter_cons, ih (setDelete reg c)]

theorem tickLoop_registry (w : Nat → Bool) :
    ∀ (snap reg : List Nat),
      (tickLoop w snap reg).registry =
        (snap.filter (fun d => ! w d)).foldl setDelete reg := by
  intro snap
  induction snap with
  | nil => intro reg; rfl
  | cons c rest ih =>
    intro reg
    by_cases hw : w c
    · simp [tickLoop, hw, List.filter_cons, ih reg]
    · simp [tickLoop, hw, List.filter_cons, List.foldl_cons,
        ih (setDelete reg c)]

theorem foldl_setDelete_const :
    ∀ (t : List Nat) (reg : List Nat) (c : Nat), (∀ d, d ∈ t → d = c) →
      List.foldl setDelete (setDelete reg c) t = setDelete reg c := by
  intro t
  induction t with
  | nil => intro reg c _; rfl
  | cons e t2 ih =>
    intro reg c hall
    have he : e = c := hall e (List.mem_cons_self e t2)
    subst he
    rw [List.foldl_cons, setDelete_idem]
    exact ih reg e fun d hd => hall d (List.mem_cons_of_mem e hd)

/-- C7: during one scheduler tick, if the write to one registered client
fails, that client is removed from the registry and its sink closed, and
every other registered client still receives that tick frame; removing a
client already absent from the registry is a no-op. -/
theorem tick_failure_isolation (w : Nat → Bool) (frame : List Byte)
    (reg : List Nat) (c : Nat) (hc : c ∈ reg) (hw : w c = false)
    (hothers : ∀ d, d ∈ reg → d ≠ c → w d = true) :
    ((tick w (some frame) reg).registry = setDelete reg c
      ∧ c ∉ (tick w (some frame) reg).registry
      ∧ c ∈ (tick w (some frame) reg).closed
      ∧ ∀ d, d ∈ reg → d ≠ c →
          d ∈ (tick w (some frame) reg).received
          ∧ d ∈ (tick w (some frame) reg).registry)
    ∧ (∀ (reg2 : List Nat) (e : Nat), e ∉ reg2 → setDelete reg2 e = reg2) := by
  have htick : tick w (some frame) reg = tickLoop w reg reg := by
    unfold tick
    rw [if_neg]
    intro hor
    rcases hor with h | h
    · exact Option.noConfusion h
    · exact List.ne_nil_of_mem hc h
  have hreg : (tick w (some frame) reg).registry = setDelete reg c := by
    rw [htick, tickLoop_registry]
    have hne : reg.filter (fun d => ! w d) ≠ [] := by
      have hcmem : c ∈ reg.filter (fun d => ! w d) :=
        List.mem_filter.mpr ⟨hc, by rw [hw]; rfl⟩
      exact List.ne_nil_of_mem hcmem
    have hall : ∀ d, d ∈ reg.filter (fun d => ! w d) → d = c := by
      intro d hd
      rcases List.mem_filter.mp hd with ⟨hdm, hdw⟩
      by_contra hdc
      have := hothers d hdm hdc
      rw [this] at hdw
      simp at hdw
    cases hfl : reg.filter (fun d => ! w d) with
    | nil => exact absurd hfl hne
    | cons e t =>
      have he : e = c := hall e (by rw [hfl]; exact List.mem_cons_self e t)
      subst he
      rw [List.foldl_cons]
      exact foldl_setDelete_const t reg e fun d hd =>
        hall d (by rw [hfl]; exact List.mem_cons_of_mem e hd)
  refine ⟨⟨hreg, ?_, ?_, ?_⟩, fun reg2 e he => setDelete_not_mem he⟩
  · rw [hreg]
    exact not_mem_setDelete reg c
  · rw [htick, tickLoop_closed]
    exact List.mem_filter.mpr ⟨hc, by rw [hw]; rfl⟩
  · intro d hd hdc
    constructor
    · rw [htick, tickLoop_received]
      exact List.mem_filter.mpr ⟨hd, hothers d hd hdc⟩
    · rw [hreg]
      exact mem_setDelete_of_ne hd hdc

theorem tick_failure_isolation_witness :
    (tick (fun n => n != 2) (some [7]) [1, 2, 3]).registry = setDelete [1, 2, 3] 2
    ∧ 2 ∉ (tick (fun n => n != 2) (some [7]) [1, 2, 3]).registry
    ∧ 2 ∈ (tick (fun n => n != 2) (some [7]) [1, 2, 3]).closed
    ∧ 1 ∈ (tick (fun n => n != 2) (some [7]) [1, 2, 3]).received
    ∧ 3 ∈ (tick (fun n => n != 2) (some [7]) [1, 2, 3]).received
    ∧ setDelete [1, 3] 2 = [1, 3] := by
  have h := tick_failure_isolation (fun n => n != 2) [7] [1, 2, 3] 2
    (by decide) (by decide) (by decide)
  exact ⟨h.1.1, h.1.2.1, h.1.2.2.1, (h.1.2.2.2 1 (by decide) (by decide)).1,
    (h.1.2.2.2 3 (by decide) (by decide)).1, h.2 [1, 3] 2 (by decide)⟩

/-- C8: in len-prefix mode the input 00 00 00 05 followed by ABCDE yields
exactly one extracted frame ABCDE of length 5; a subsequent input with
header 5 but only two body bytes yields no frame, and the pending frame is
completed only after the remaining three bytes arrive. -/
theorem lenprefix_scenario :
    lenExtract none [0, 0, 0, 5, 65, 66, 67, 68, 69] =
      ([[65, 66, 67, 68, 69]], none, [])
    ∧ lenExtract none [0, 0, 0, 5, 65, 66] = ([], some 5, [65, 66])
    ∧ lenExtract (some 5) ([65, 66] ++ [67]) = ([], some 5, [65, 66, 67])
    ∧ lenExtract (some 5) ([65, 66, 67] ++ [68]) = ([], some 5, [65, 66, 67, 68])
    ∧ lenExtract (some 5) ([65, 66, 67, 68] ++ [69]) =
        ([[65, 66, 67, 68, 69]], none, []) := by
  have hr1 : readU32BE [0, 0, 0, 5, 65, 66, 67, 68, 69] = 5 := by decide
  have hr2 : readU32BE [0, 0, 0, 5, 65, 66] = 5 := by decide
  refine ⟨?_, ?_, ?_, ?_, ?_⟩
  · rw [lenExtract_none_big (by decide), hr1]
    rw [show ([0, 0, 0, 5, 65, 66, 67, 68, 69] : List Byte).drop 4 =
      [65, 66, 67, 68, 69] from rfl]
    rw [lenExtract_some_big (by decide)]
    rw [show ([65, 66, 67, 68, 69] : List Byte).take 5 = [65, 66, 67, 68, 69] from rfl,
      show ([65, 66, 67, 68, 69] : List Byte).drop 5 = [] from rfl]
    rw [lenExtract_none_small (by decide)]
  · rw [lenExtract_none_big (by decide), hr2]
    rw [show ([0, 0, 0, 5, 65, 66] : List Byte).drop 4 = [65, 66] from rfl]
    rw [lenExtract_some_small (by decide)]
  · show lenExtract (some 5) [65, 66, 67] = ([], some 5, [65, 66, 67])
    rw [lenExtract_some_small (by decide)]
  · show lenExtract (some 5) [65, 66, 67, 68] = ([], some 5, [65, 66, 67, 68])
    rw [lenExtract_some_small (by decide)]
  · show lenExtract (some 5) [65, 66, 67, 68, 69] =
      ([[65, 66, 67, 68, 69]], none, [])
    rw [lenExtract_some_big (by decide)]
    rw [show ([65, 66, 67, 68, 69] : List Byte).take 5 = [65, 66, 67, 68, 69] from rfl,
      show ([65, 66, 67, 68, 69] : List Byte).drop 5 = [] from rfl]
    rw [lenExtract_none_small (by decide)]

end MjpegServer
